import Mathlib

/-!
Verification of the grid-MDP solvers (value iteration and policy iteration)
of the IntelligentAgentsAssignment1 repository.

The Python source is shallowly embedded:
* machine floats become exact rationals (ℚ);
* Python dicts keyed by states become total functions `State → _`
  (the algorithms only ever read them at keys they have written);
* the per-(state, action) outcome dicts become association lists in
  insertion order;
* the `while` loops become fuel-indexed recursions returning `Option`,
  where `none` covers both exhausted fuel and a Python runtime error
  (`KeyError` / `TypeError`), i.e. every `some` result is a run that the
  Python program completes normally;
* Python list indexing (including its negative-index wrap-around) is
  modelled by `pyIndex`.
-/

namespace MazeVerify

/-- Enums of the possible actions, from `Maze.MazeActions`.
The coordinate deltas of the source enum only appear in display code, so the
actions are embedded as a plain four-element inductive type. -/
inductive MazeActions where
  | UP
  | DOWN
  | LEFT
  | RIGHT
deriving DecidableEq, Inhabited, Repr

/-- The fixed enumeration order of `MazeActions` (Python iterates enum members
in definition order). -/
def allMazeActions : List MazeActions :=
  [MazeActions.UP, MazeActions.DOWN, MazeActions.LEFT, MazeActions.RIGHT]

/-- A maze state is a `(row, col)` coordinate pair; Python ints are ℤ. -/
abbrev State := ℤ × ℤ

/-- The environment grid: each cell is a reward or `none` for a wall. -/
abbrev Env := List (List (Option ℚ))

/-- Python list indexing `l[i]`: supports negative indices (wrap-around from
the end); `none` models an `IndexError`. -/
def pyIndex {α : Type} (l : List α) (i : ℤ) : Option α :=
  if 0 ≤ i ∧ i < (l.length : ℤ) then l.get? i.toNat
  else if -(l.length : ℤ) ≤ i ∧ i < 0 then l.get? ((l.length : ℤ) + i).toNat
  else none

/-- `Maze.is_wall`: out of bounds of the maze, or a `None` cell. -/
def is_wall (env : Env) (s : State) : Bool :=
  decide (s.1 < 0) || decide ((env.length : ℤ) ≤ s.1) ||
  decide (s.2 < 0) || decide (((env.headD []).length : ℤ) ≤ s.2) ||
  ((env.getD s.1.toNat []).getD s.2.toNat (some 0) == none)

/-- `Maze.get_next_state_probabilities`: the outcome dict for one
(state, intended action) pair, as an association list in insertion order.
Each entry is (actual action, (next state, probability)). -/
def get_next_state_probabilities (env : Env) (state : State) (action : MazeActions) :
    List (MazeActions × State × ℚ) :=
  let up_state := if is_wall env (state.1 - 1, state.2) then state else (state.1 - 1, state.2)
  let down_state := if is_wall env (state.1 + 1, state.2) then state else (state.1 + 1, state.2)
  let left_state := if is_wall env (state.1, state.2 - 1) then state else (state.1, state.2 - 1)
  let right_state := if is_wall env (state.1, state.2 + 1) then state else (state.1, state.2 + 1)
  match action with
  | MazeActions.UP =>
      [(MazeActions.UP, up_state, 4/5),
       (MazeActions.LEFT, left_state, 1/10),
       (MazeActions.RIGHT, right_state, 1/10)]
  | MazeActions.DOWN =>
      [(MazeActions.DOWN, down_state, 4/5),
       (MazeActions.LEFT, left_state, 1/10),
       (MazeActions.RIGHT, right_state, 1/10)]
  | MazeActions.LEFT =>
      [(MazeActions.LEFT, left_state, 4/5),
       (MazeActions.UP, up_state, 1/10),
       (MazeActions.DOWN, down_state, 1/10)]
  | MazeActions.RIGHT =>
      [(MazeActions.RIGHT, right_state, 4/5),
       (MazeActions.UP, up_state, 1/10),
       (MazeActions.DOWN, down_state, 1/10)]

/-- `Maze.transition_model` (the branch after the `self.states` lookups):
look up `actual_action` in the outcome dict, returning its probability,
or 0 when the actual action is not among the stored outcomes. -/
def mazeTransitionModel (env : Env) (current_state : State)
    (intended_action actual_action : MazeActions) : ℚ :=
  match (get_next_state_probabilities env current_state intended_action).lookup actual_action with
  | some p => p.2
  | none => 0

/-- The state set built by `Maze.__init__`: all in-bounds non-wall cells,
in row-major order (Python dict-comprehension insertion order). -/
def mazeStates (env : Env) : List State :=
  ((List.range env.length).flatMap (fun row =>
    (List.range (env.headD []).length).map (fun col => (((row : ℤ), (col : ℤ)) : State)))).filter
    (fun s => !is_wall env s)

/-- `Maze.transition_model` with its `self.states[current_state]` dict lookup
made explicit: `none` models the `KeyError` raised when `current_state` is not
in the state set. -/
def transition_model_checked (env : Env) (current_state : State)
    (intended_action actual_action : MazeActions) : Option ℚ :=
  if current_state ∈ mazeStates env then
    some (mazeTransitionModel env current_state intended_action actual_action)
  else none

/-- `Maze.reward_function`: `self.environment[state[0]][state[1]]` with Python
indexing semantics. The outer `none` models an `IndexError`; a returned
`some cell` is a normal return, where `cell = none` is the wall marker. -/
def reward_function_checked (env : Env) (state : State) : Option (Option ℚ) :=
  (pyIndex env state.1).bind (fun row => pyIndex row state.2)

/-- The reward function installed on the maze MDP; on every valid state it
equals the stored cell reward (see `reward_function_checked`), and it is
only ever applied to valid states by the solvers. -/
def mazeRewardFn (env : Env) (state : State) : ℚ :=
  ((reward_function_checked env state).getD none).getD 0

/-- The `MarkovDecisionProcess` data the algorithms consume: the `states`
dict is split into its key list (iteration order), the per-state action key
list, and the per-(state, action) outcome list. -/
structure MDP where
  states : List State
  actionKeys : State → List MazeActions
  action_next_state_map : State → MazeActions → List (MazeActions × State × ℚ)
  transition_model : State → MazeActions → MazeActions → ℚ
  reward_function : State → ℚ
  discount_factor : ℚ
  start_state : State

/-- `Maze.__init__`: the grid MDP. Every state exposes all four actions
(`build_action_next_state_map` inserts them in enum order). -/
def mazeMDP (env : Env) (start_state : State) (discount_factor : ℚ) : MDP where
  states := mazeStates env
  actionKeys := fun _ => allMazeActions
  action_next_state_map := fun s a => get_next_state_probabilities env s a
  transition_model := mazeTransitionModel env
  reward_function := mazeRewardFn env
  discount_factor := discount_factor
  start_state := start_state

/-- `Algorithms.get_expected_utility`: sum over the outcomes stored for
(state, intended action) of transition probability times next-state utility. -/
def get_expected_utility (mdp : MDP) (current_state : State)
    (intended_action : MazeActions) (utilities : State → ℚ) : ℚ :=
  ((mdp.action_next_state_map current_state intended_action).map
    (fun e => mdp.transition_model current_state intended_action e.1 * utilities e.2.1)).sum

/-- The shared argmax loop of `bellman_equation` and `policy_improvement`:
starting from `best`, replace it whenever a later action has strictly larger
value (so the first maximiser in enumeration order wins). -/
def argmax_go (f : MazeActions → ℚ) : List MazeActions → ℚ × MazeActions → ℚ × MazeActions
  | [], best => best
  | a :: rest, best => argmax_go f rest (if best.1 < f a then (f a, a) else best)

/-- The argmax loop started from `max_expected_utility = -inf`,
`best_action = None`: the first action always replaces the initial -inf, so a
nonempty list yields `some`; `none` is the empty-list (-inf, None) outcome. -/
def argmax_list (f : MazeActions → ℚ) : List MazeActions → Option (ℚ × MazeActions)
  | [] => none
  | a :: rest => some (argmax_go f rest (f a, a))

/-- `Algorithms.bellman_equation`: reward plus discounted best expected
utility, together with the maximising action. `none` is the -inf/None result
produced when a state has an empty action dict (in which case the Python
value would be -inf and the surrounding loop could never converge). -/
def bellman_equation (mdp : MDP) (current_state : State) (current_utilities : State → ℚ) :
    Option (ℚ × MazeActions) :=
  (argmax_list (fun a => get_expected_utility mdp current_state a current_utilities)
      (mdp.actionKeys current_state)).map
    (fun p => (mdp.reward_function current_state + mdp.discount_factor * p.1, p.2))

/-- The per-sweep mutable state of `value_iteration`: the new utilities dict,
the policy dict, and the running residual δ. -/
structure SweepOut where
  newU : State → ℚ
  pol : State → Option MazeActions
  delta : ℚ

/-- The inner `for state in mdp.states` loop of one `value_iteration` sweep:
every state's new utility is computed by `bellman_equation` from the same
snapshot `U`, and δ accumulates `max δ |U'(s) - U(s)|`. -/
def vi_sweep_go (mdp : MDP) (U : State → ℚ) : List State → SweepOut → Option SweepOut
  | [], out => some out
  | s :: rest, out =>
    match bellman_equation mdp s U with
    | none => none
    | some p =>
        vi_sweep_go mdp U rest
          ⟨Function.update out.newU s p.1, Function.update out.pol s (some p.2),
           max out.delta |p.1 - U s|⟩

/-- One full sweep of `value_iteration` over `mdp.states`, starting with
δ = 0 and the carried-over policy dict (`new_utilities` equals the snapshot
at the start of a sweep, since `current_utilities.update(new_utilities)` has
just made the two dicts equal). -/
def vi_sweep (mdp : MDP) (U : State → ℚ) (pol : State → Option MazeActions) : Option SweepOut :=
  vi_sweep_go mdp U mdp.states ⟨U, pol, 0⟩

/-- The result dict of either solver: converged utilities, optimal policy,
iteration count and per-state utility history. -/
structure SolveResult where
  converged_utilities : State → ℚ
  optimal_policy : State → Option MazeActions
  num_iterations : ℕ
  iteration_utilities : State → List ℚ

/-- Appending the current utilities to every state's history list
(the history dicts only have the MDP's states as keys). -/
def record_hist (states : List State) (hist : State → List ℚ) (U : State → ℚ) :
    State → List ℚ :=
  fun s => if s ∈ states then hist s ++ [U s] else hist s

/-- The `while True` loop of `value_iteration`, fuel-indexed. Each iteration
snapshots the utilities (`current ← new`), appends them to the history,
performs one synchronous sweep, and exits exactly when
δ < max_error · (1 - γ)/γ, returning the snapshot utilities and the policy
written by the final sweep. `num_iterations` is the history length at the
start state; a start state outside the state set would make the Python code
raise (`len(None)`), modelled by `none`. -/
def vi_loop (mdp : MDP) (max_error : ℚ) :
    (State → ℚ) → (State → Option MazeActions) → (State → List ℚ) → ℕ → Option SolveResult
  | _, _, _, 0 => none
  | newU, pol, hist, fuel + 1 =>
    let current := newU
    let hist2 := record_hist mdp.states hist current
    match vi_sweep mdp current pol with
    | none => none
    | some out =>
      if out.delta < max_error * (1 - mdp.discount_factor) / mdp.discount_factor then
        if mdp.start_state ∈ mdp.states then
          some ⟨current, out.pol, (hist2 mdp.start_state).length, hist2⟩
        else none
      else vi_loop mdp max_error out.newU out.pol hist2 fuel

/-- `Algorithms.value_iteration`: utilities and history initialised to zero
and empty, policy initialised to `None` everywhere. -/
def value_iteration (mdp : MDP) (max_error : ℚ) (fuel : ℕ) : Option SolveResult :=
  vi_loop mdp max_error (fun _ => 0) (fun _ => none) (fun _ => []) fuel

/-- The inner state loop of one `policy_evaluation` round: each state's
utility is recomputed from the snapshot `U` with the action fixed by the
policy (simplified Bellman equation); a `None` policy entry would make the
Python dict lookup raise, modelled by `none`. -/
def pe_round_go (mdp : MDP) (policy : State → Option MazeActions) (U : State → ℚ) :
    List State → (State → ℚ) → Option (State → ℚ)
  | [], upd => some upd
  | s :: rest, upd =>
    match policy s with
    | none => none
    | some a =>
        pe_round_go mdp policy U rest
          (Function.update upd s
            (mdp.reward_function s + mdp.discount_factor * get_expected_utility mdp s a U))

/-- One synchronous round of `policy_evaluation`. -/
def pe_round (mdp : MDP) (policy : State → Option MazeActions) (U : State → ℚ) :
    Option (State → ℚ) :=
  pe_round_go mdp policy U mdp.states U

/-- The `for i in range(num_policy_evaluation)` loop of `policy_evaluation`:
runs the requested number of rounds, appending each round's resulting
utilities to every state's history list. -/
def pe_rounds (mdp : MDP) (policy : State → Option MazeActions) :
    ℕ → (State → ℚ) → (State → List ℚ) → Option ((State → ℚ) × (State → List ℚ))
  | 0, U, h => some (U, h)
  | n + 1, U, h =>
    match pe_round mdp policy U with
    | none => none
    | some U2 => pe_rounds mdp policy n U2 (record_hist mdp.states h U2)

/-- `Algorithms.policy_evaluation`: the per-call history starts empty. -/
def policy_evaluation (mdp : MDP) (policy : State → Option MazeActions)
    (utilities : State → ℚ) (num_policy_evaluation : ℕ) :
    Option ((State → ℚ) × (State → List ℚ)) :=
  pe_rounds mdp policy num_policy_evaluation utilities (fun _ => [])

/-- The state loop of `policy_improvement`: for each state take the argmax of
expected utilities over its actions, adopt it when it strictly beats the
current policy's expected utility (setting `hasChanged`), otherwise keep the
current action. A `None` policy entry raises in Python, modelled by `none`. -/
def improve_go (mdp : MDP) (policy : State → Option MazeActions) (U : State → ℚ) :
    List State → (State → Option MazeActions) → Bool →
    Option ((State → Option MazeActions) × Bool)
  | [], pol, ch => some (pol, ch)
  | s :: rest, pol, ch =>
    match argmax_list (fun a => get_expected_utility mdp s a U) (mdp.actionKeys s) with
    | some best =>
      match policy s with
      | none => none
      | some pa =>
        if get_expected_utility mdp s pa U < best.1 then
          improve_go mdp policy U rest (Function.update pol s (some best.2)) true
        else
          improve_go mdp policy U rest (Function.update pol s (policy s)) ch
    | none =>
      match policy s with
      | none => none
      | some _ =>
        improve_go mdp policy U rest (Function.update pol s (policy s)) ch

/-- `Algorithms.policy_improvement`, threading the improved policy and the
`hasChanged` flag. -/
def policy_improvement (mdp : MDP) (policy : State → Option MazeActions) (U : State → ℚ) :
    Option ((State → Option MazeActions) × Bool) :=
  improve_go mdp policy U mdp.states policy false

/-- The `while hasChanged` loop of `policy_iteration`, fuel-indexed, also
carrying the Python local variable `num_iterations` (which accumulates
`num_policy_evaluation` per outer loop); the final value of that local is
returned alongside the result so that it can be compared with the
`num_iterations` field actually placed in the result dict. -/
def pi_loop (mdp : MDP) (k : ℕ) :
    (State → ℚ) → (State → Option MazeActions) → (State → List ℚ) → ℕ → ℕ →
    Option (SolveResult × ℕ)
  | _, _, _, _, 0 => none
  | U, policy, hist, numIts, fuel + 1 =>
    match policy_evaluation mdp policy U k with
    | none => none
    | some (U2, newHist) =>
      match policy_improvement mdp policy U2 with
      | none => none
      | some (policy2, hasChanged) =>
        let numIts2 := numIts + k
        let hist2 := fun s => if s ∈ mdp.states then hist s ++ newHist s else hist s
        if hasChanged then pi_loop mdp k U2 policy2 hist2 numIts2 fuel
        else
          if mdp.start_state ∈ mdp.states then
            some (⟨U2, policy2, (hist2 mdp.start_state).length, hist2⟩, numIts2)
          else none

/-- `Algorithms.policy_iteration`: utilities initialised to zero, policy
initialised to `UP` everywhere, history seeded with the zeroth (all-zero)
utility for every state. -/
def policy_iteration (mdp : MDP) (num_policy_evaluation : ℕ) (fuel : ℕ) :
    Option (SolveResult × ℕ) :=
  pi_loop mdp num_policy_evaluation (fun _ => 0) (fun _ => some MazeActions.UP)
    (fun s => if s ∈ mdp.states then [0] else []) 0 fuel

/-! ### Lemmas about the shared argmax loop -/

theorem argmax_go_fst_le (f : MazeActions → ℚ) :
    ∀ (l : List MazeActions) (best : ℚ × MazeActions), best.1 ≤ (argmax_go f l best).1 := by
  intro l
  induction l with
  | nil => intro best; exact le_refl _
  | cons a rest ih =>
    intro best
    simp only [argmax_go]
    refine le_trans ?_ (ih _)
    split
    · exact le_of_lt (by assumption)
    · exact le_refl _

theorem argmax_go_le (f : MazeActions → ℚ) :
    ∀ (l : List MazeActions) (best : ℚ × MazeActions) (a : MazeActions), a ∈ l →
      f a ≤ (argmax_go f l best).1 := by
  intro l
  induction l with
  | nil => intro best a ha; simp at ha
  | cons b rest ih =>
    intro best a ha
    rcases List.mem_cons.mp ha with h | h
    · subst h
      simp only [argmax_go]
      refine le_trans ?_ (argmax_go_fst_le f rest _)
      split
      · exact le_refl _
      · exact le_of_not_lt (by assumption)
    · exact ih _ a h

theorem argmax_go_achieves (f : MazeActions → ℚ) :
    ∀ (l : List MazeActions) (best : ℚ × MazeActions),
      argmax_go f l best = best ∨
        ((argmax_go f l best).2 ∈ l ∧ (argmax_go f l best).1 = f (argmax_go f l best).2) := by
  intro l
  induction l with
  | nil => intro best; exact Or.inl rfl
  | cons a rest ih =>
    intro best
    simp only [argmax_go]
    split
    · rcases ih (f a, a) with h | h
      · right
        rw [h]
        exact ⟨List.mem_cons_self _ _, rfl⟩
      · exact Or.inr ⟨List.mem_cons_of_mem _ h.1, h.2⟩
    · rcases ih best with h | h
      · exact Or.inl h
      · exact Or.inr ⟨List.mem_cons_of_mem _ h.1, h.2⟩

theorem argmax_list_isSome (f : MazeActions → ℚ) (l : List MazeActions) (h : l ≠ []) :
    ∃ p, argmax_list f l = some p := by
  cases l with
  | nil => exact absurd rfl h
  | cons a rest => exact ⟨_, rfl⟩

theorem argmax_list_le (f : MazeActions → ℚ) (l : List MazeActions) (p : ℚ × MazeActions)
    (h : argmax_list f l = some p) : ∀ a ∈ l, f a ≤ p.1 := by
  cases l with
  | nil => simp [argmax_list] at h
  | cons a rest =>
    simp only [argmax_list, Option.some.injEq] at h
    subst h
    intro b hb
    rcases List.mem_cons.mp hb with h | h
    · subst h; exact argmax_go_fst_le f rest _
    · exact argmax_go_le f rest _ b h

theorem argmax_list_mem (f : MazeActions → ℚ) (l : List MazeActions) (p : ℚ × MazeActions)
    (h : argmax_list f l = some p) : p.2 ∈ l ∧ p.1 = f p.2 := by
  cases l with
  | nil => simp [argmax_list] at h
  | cons a rest =>
    simp only [argmax_list, Option.some.injEq] at h
    subst h
    rcases argmax_go_achieves f rest (f a, a) with h | h
    · rw [h]; exact ⟨List.mem_cons_self _ _, rfl⟩
    · exact ⟨List.mem_cons_of_mem _ h.1, h.2⟩

theorem argmax_list_maximum (f : MazeActions → ℚ) (l : List MazeActions) (p : ℚ × MazeActions)
    (h : argmax_list f l = some p) : (l.map f).maximum = (p.1 : WithBot ℚ) := by
  rw [List.maximum_eq_coe_iff]
  constructor
  · rcases argmax_list_mem f l p h with ⟨hm, he⟩
    exact he ▸ List.mem_map_of_mem f hm
  · intro b hb
    rcases List.mem_map.mp hb with ⟨a, ha, rfl⟩
    exact argmax_list_le f l p h a ha

/-! ### Lemmas about one value-iteration sweep -/

theorem bellman_equation_some (mdp : MDP) (s : State) (U : State → ℚ)
    (h : mdp.actionKeys s ≠ []) :
    ∃ m b, argmax_list (fun a => get_expected_utility mdp s a U) (mdp.actionKeys s) = some (m, b)
      ∧ bellman_equation mdp s U =
          some (mdp.reward_function s + mdp.discount_factor * m, b) := by
  rcases argmax_list_isSome (fun a => get_expected_utility mdp s a U) _ h with ⟨p, hp⟩
  exact ⟨p.1, p.2, hp, by simp [bellman_equation, hp]⟩

theorem vi_sweep_go_some (mdp : MDP) (U : State → ℚ) :
    ∀ (l : List State), (∀ s ∈ l, mdp.actionKeys s ≠ []) →
      ∀ out, ∃ out2, vi_sweep_go mdp U l out = some out2 := by
  intro l
  induction l with
  | nil => intro _ out; exact ⟨out, rfl⟩
  | cons s rest ih =>
    intro hl out
    rcases bellman_equation_some mdp s U (hl s (List.mem_cons_self _ _)) with ⟨m, b, _, hb⟩
    rcases ih (fun t ht => hl t (List.mem_cons_of_mem _ ht))
      ⟨Function.update out.newU s (mdp.reward_function s + mdp.discount_factor * m),
       Function.update out.pol s (some b),
       max out.delta |mdp.reward_function s + mdp.discount_factor * m - U s|⟩ with ⟨out2, h2⟩
    exact ⟨out2, by simp only [vi_sweep_go, hb]; exact h2⟩

theorem vi_sweep_go_values (mdp : MDP) (U : State → ℚ) :
    ∀ (l : List State) (out out2 : SweepOut), vi_sweep_go mdp U l out = some out2 →
      ∀ t : State,
        (t ∈ l → ∃ p, bellman_equation mdp t U = some p
            ∧ out2.newU t = p.1 ∧ out2.pol t = some p.2)
        ∧ (t ∉ l → out2.newU t = out.newU t ∧ out2.pol t = out.pol t) := by
  intro l
  induction l with
  | nil =>
    intro out out2 h t
    simp only [vi_sweep_go, Option.some.injEq] at h
    subst h
    exact ⟨fun ht => absurd ht (List.not_mem_nil t), fun _ => ⟨rfl, rfl⟩⟩
  | cons s rest ih =>
    intro out out2 h t
    simp only [vi_sweep_go] at h
    cases hb : bellman_equation mdp s U with
    | none => rw [hb] at h; exact absurd h (by simp)
    | some p =>
      rw [hb] at h
      have iht := ih _ out2 h t
      constructor
      · intro ht
        by_cases hr : t ∈ rest
        · exact iht.1 hr
        · rcases List.mem_cons.mp ht with h' | h'
          · subst h'
            rcases iht.2 hr with ⟨h1, h2⟩
            exact ⟨p, hb, by simpa using h1, by simpa using h2⟩
          · exact absurd h' hr
      · intro ht
        have hts : t ≠ s := fun h' => ht (h' ▸ List.mem_cons_self _ _)
        have htr : t ∉ rest := fun h' => ht (List.mem_cons_of_mem _ h')
        rcases iht.2 htr with ⟨h1, h2⟩
        constructor
        · rw [h1]; simp [Function.update_noteq hts]
        · rw [h2]; simp [Function.update_noteq hts]

theorem vi_sweep_go_delta_le (mdp : MDP) (U : State → ℚ) :
    ∀ (l : List State) (out out2 : SweepOut), vi_sweep_go mdp U l out = some out2 →
      out.delta ≤ out2.delta := by
  intro l
  induction l with
  | nil =>
    intro out out2 h
    simp only [vi_sweep_go, Option.some.injEq] at h
    exact h ▸ le_refl _
  | cons s rest ih =>
    intro out out2 h
    simp only [vi_sweep_go] at h
    cases hb : bellman_equation mdp s U with
    | none => rw [hb] at h; exact absurd h (by simp)
    | some p =>
      rw [hb] at h
      exact le_trans (le_max_left _ _) (ih _ out2 h)

theorem vi_sweep_go_delta_lt (mdp : MDP) (U : State → ℚ) (c : ℚ) :
    ∀ (l : List State) (out out2 : SweepOut), vi_sweep_go mdp U l out = some out2 →
      (out2.delta < c ↔ out.delta < c ∧
        ∀ s ∈ l, ∀ p, bellman_equation mdp s U = some p → |p.1 - U s| < c) := by
  intro l
  induction l with
  | nil =>
    intro out out2 h
    simp only [vi_sweep_go, Option.some.injEq] at h
    subst h
    simp
  | cons s rest ih =>
    intro out out2 h
    simp only [vi_sweep_go] at h
    cases hb : bellman_equation mdp s U with
    | none => rw [hb] at h; exact absurd h (by simp)
    | some p =>
      rw [hb] at h
      rw [ih _ out2 h]
      constructor
      · rintro ⟨hmax, hrest⟩
        rcases max_lt_iff.mp hmax with ⟨h1, h2⟩
        refine ⟨h1, ?_⟩
        intro s' hs' p' hp'
        rcases List.mem_cons.mp hs' with h' | h'
        · subst h'
          rw [hp'] at hb
          cases hb
          exact h2
        · exact hrest s' h' p' hp'
      · rintro ⟨h1, h2⟩
        refine ⟨max_lt_iff.mpr ⟨h1, h2 s (List.mem_cons_self _ _) p hb⟩, ?_⟩
        intro s' hs' p' hp'
        exact h2 s' (List.mem_cons_of_mem _ hs') p' hp'

/-! ### Lemmas about the value-iteration loop -/

theorem vi_loop_none_of_one_le (mdp : MDP) (max_error : ℚ)
    (hγ : 1 ≤ mdp.discount_factor) (hε : 0 < max_error) :
    ∀ (fuel : ℕ) (U : State → ℚ) (pol : State → Option MazeActions) (hist : State → List ℚ),
      vi_loop mdp max_error U pol hist fuel = none := by
  have hthr : max_error * (1 - mdp.discount_factor) / mdp.discount_factor ≤ 0 := by
    apply div_nonpos_of_nonpos_of_nonneg
    · have h1 : 1 - mdp.discount_factor ≤ 0 := by linarith
      exact mul_nonpos_of_nonneg_of_nonpos (le_of_lt hε) h1
    · linarith
  intro fuel
  induction fuel with
  | zero => intro U pol hist; rfl
  | succ n ih =>
    intro U pol hist
    simp only [vi_loop]
    cases hs : vi_sweep mdp U pol with
    | none => rfl
    | some out =>
      have hd : 0 ≤ out.delta := vi_sweep_go_delta_le mdp U mdp.states _ _ hs
      dsimp only
      rw [if_neg (by push_neg; linarith)]
      exact ih _ _ _

theorem vi_loop_last_sweep (mdp : MDP) (max_error : ℚ) :
    ∀ (fuel : ℕ) (U : State → ℚ) (pol : State → Option MazeActions) (hist : State → List ℚ)
      (res : SolveResult), vi_loop mdp max_error U pol hist fuel = some res →
      ∃ U0 pol0 out, vi_sweep mdp U0 pol0 = some out
        ∧ res.converged_utilities = U0 ∧ res.optimal_policy = out.pol := by
  intro fuel
  induction fuel with
  | zero => intro U pol hist res h; exact absurd h (by simp [vi_loop])
  | succ n ih =>
    intro U pol hist res h
    simp only [vi_loop] at h
    cases hs : vi_sweep mdp U pol with
    | none => rw [hs] at h; exact absurd h (by simp)
    | some out =>
      rw [hs] at h
      dsimp only at h
      by_cases hbr :
          out.delta < max_error * (1 - mdp.discount_factor) / mdp.discount_factor
      · rw [if_pos hbr] at h
        by_cases hst : mdp.start_state ∈ mdp.states
        · rw [if_pos hst] at h
          cases h
          exact ⟨U, pol, out, hs, rfl, rfl⟩
        · rw [if_neg hst] at h
          exact absurd h (by simp)
      · rw [if_neg hbr] at h
        exact ih _ _ _ res h

/-! ### Lemmas about policy improvement and the policy-iteration loop -/

theorem improve_go_policy_some (mdp : MDP) (policy : State → Option MazeActions)
    (U : State → ℚ) :
    ∀ (l : List State) (pol : State → Option MazeActions) (ch : Bool)
      (pol2 : State → Option MazeActions) (ch2 : Bool),
      improve_go mdp policy U l pol ch = some (pol2, ch2) →
      (∀ t, pol t ≠ none) → ∀ t, pol2 t ≠ none := by
  intro l
  induction l with
  | nil =>
    intro pol ch pol2 ch2 h hp
    simp only [improve_go, Option.some.injEq] at h
    cases h
    exact hp
  | cons s rest ih =>
    intro pol ch pol2 ch2 h hp
    simp only [improve_go] at h
    cases hb : argmax_list (fun a => get_expected_utility mdp s a U) (mdp.actionKeys s) with
    | some best =>
      rw [hb] at h
      cases hps : policy s with
      | none => rw [hps] at h; exact absurd h (by simp)
      | some pa =>
        rw [hps] at h
        dsimp only at h
        by_cases hlt : get_expected_utility mdp s pa U < best.1
        · rw [if_pos hlt] at h
          refine ih _ _ _ _ h ?_
          intro t
          by_cases hts : t = s
          · subst hts; simp
          · simpa [Function.update_noteq hts] using hp t
        · rw [if_neg hlt] at h
          refine ih _ _ _ _ h ?_
          intro t
          by_cases hts : t = s
          · subst hts; simp [hps]
          · simpa [Function.update_noteq hts] using hp t
    | none =>
      rw [hb] at h
      cases hps : policy s with
      | none => rw [hps] at h; exact absurd h (by simp)
      | some pa =>
        rw [hps] at h
        dsimp only at h
        refine ih _ _ _ _ h ?_
        intro t
        by_cases hts : t = s
        · subst hts; simp [hps]
        · simpa [Function.update_noteq hts] using hp t

theorem pi_loop_policy_some (mdp : MDP) (k : ℕ) :
    ∀ (fuel : ℕ) (U : State → ℚ) (policy : State → Option MazeActions)
      (hist : State → List ℚ) (numIts : ℕ) (res : SolveResult) (n : ℕ),
      pi_loop mdp k U policy hist numIts fuel = some (res, n) →
      (∀ t, policy t ≠ none) → ∀ t, res.optimal_policy t ≠ none := by
  intro fuel
  induction fuel with
  | zero => intro U policy hist numIts res n h _; exact absurd h (by simp [pi_loop])
  | succ m ih =>
    intro U policy hist numIts res n h hp
    simp only [pi_loop] at h
    cases hpe : policy_evaluation mdp policy U k with
    | none => rw [hpe] at h; exact absurd h (by simp)
    | some pr =>
      obtain ⟨U2, newHist⟩ := pr
      rw [hpe] at h
      dsimp only at h
      cases himp : policy_improvement mdp policy U2 with
      | none => rw [himp] at h; exact absurd h (by simp)
      | some pc =>
        obtain ⟨policy2, hasChanged⟩ := pc
        rw [himp] at h
        dsimp only at h
        have hp2 : ∀ t, policy2 t ≠ none :=
          improve_go_policy_some mdp policy U2 mdp.states policy false policy2 hasChanged himp hp
        by_cases hch : hasChanged = true
        · rw [if_pos hch] at h
          exact ih _ _ _ _ res n h hp2
        · rw [if_neg hch] at h
          by_cases hst : mdp.start_state ∈ mdp.states
          · rw [if_pos hst] at h
            cases h
            exact hp2
          · rw [if_neg hst] at h
            exact absurd h (by simp)

/-! ### Lemmas about policy-evaluation and iteration counting -/

theorem pe_rounds_hist_len (mdp : MDP) (policy : State → Option MazeActions) :
    ∀ (n : ℕ) (U : State → ℚ) (h : State → List ℚ) (U2 : State → ℚ) (h2 : State → List ℚ),
      pe_rounds mdp policy n U h = some (U2, h2) →
      ∀ s ∈ mdp.states, (h2 s).length = (h s).length + n := by
  intro n
  induction n with
  | zero =>
    intro U h U2 h2 hr s hs
    simp only [pe_rounds, Option.some.injEq, Prod.mk.injEq] at hr
    rw [hr.2]
    omega
  | succ m ih =>
    intro U h U2 h2 hr s hs
    simp only [pe_rounds] at hr
    cases hro : pe_round mdp policy U with
    | none => rw [hro] at hr; exact absurd hr (by simp)
    | some U3 =>
      rw [hro] at hr
      dsimp only at hr
      have := ih U3 (record_hist mdp.states h U3) U2 h2 hr s hs
      rw [this, record_hist, if_pos hs]
      simp
      omega

theorem pi_loop_count (mdp : MDP) (k : ℕ) :
    ∀ (fuel : ℕ) (U : State → ℚ) (policy : State → Option MazeActions)
      (hist : State → List ℚ) (numIts : ℕ) (res : SolveResult) (n : ℕ),
      pi_loop mdp k U policy hist numIts fuel = some (res, n) →
      (∀ s ∈ mdp.states, (hist s).length = numIts + 1) →
      (∃ m0, numIts = k * m0) →
      res.num_iterations = n + 1 ∧ (∃ m, 1 ≤ m ∧ n = k * m) ∧
        ∀ s ∈ mdp.states, (res.iteration_utilities s).length = n + 1 := by
  intro fuel
  induction fuel with
  | zero => intro U policy hist numIts res n h _ _; exact absurd h (by simp [pi_loop])
  | succ m ih =>
    intro U policy hist numIts res n h hlen hmul
    simp only [pi_loop] at h
    cases hpe : policy_evaluation mdp policy U k with
    | none => rw [hpe] at h; exact absurd h (by simp)
    | some pr =>
      obtain ⟨U2, newHist⟩ := pr
      rw [hpe] at h
      dsimp only at h
      cases himp : policy_improvement mdp policy U2 with
      | none => rw [himp] at h; exact absurd h (by simp)
      | some pc =>
        obtain ⟨policy2, hasChanged⟩ := pc
        rw [himp] at h
        dsimp only at h
        have hnh : ∀ s ∈ mdp.states, (newHist s).length = k := by
          intro s hs
          have := pe_rounds_hist_len mdp policy k U (fun _ => []) U2 newHist hpe s hs
          simpa using this
        have hlen2 : ∀ s ∈ mdp.states,
            ((fun s => if s ∈ mdp.states then hist s ++ newHist s else hist s) s).length
              = (numIts + k) + 1 := by
          intro s hs
          simp only [if_pos hs, List.length_append, hlen s hs, hnh s hs]
          omega
        rcases hmul with ⟨m0, hm0⟩
        by_cases hch : hasChanged = true
        · rw [if_pos hch] at h
          exact ih _ _ _ _ res n h hlen2 ⟨m0 + 1, by rw [hm0]; ring⟩
        · rw [if_neg hch] at h
          by_cases hst : mdp.start_state ∈ mdp.states
          · rw [if_pos hst] at h
            cases h
            refine ⟨by simpa using hlen2 mdp.start_state hst, ⟨m0 + 1, by omega, by rw [hm0]; ring⟩, ?_⟩
            intro s hs
            simpa using hlen2 s hs
          · rw [if_neg hst] at h
            exact absurd h (by simp)

/-! ### The 1×1 grid with a single non-wall cell (spec boundary scenario) -/

/-- The 1×1 environment holding a single empty cell of reward `r`. -/
def unitEnv (r : ℚ) : Env := [[some r]]

/-- The grid MDP built from the 1×1 environment. -/
def unitMaze (r γ : ℚ) : MDP := mazeMDP (unitEnv r) ((0:ℤ), (0:ℤ)) γ

theorem unit_states (r γ : ℚ) : (unitMaze r γ).states = [((0:ℤ), (0:ℤ))] := rfl

theorem unit_reward (r γ : ℚ) : (unitMaze r γ).reward_function ((0:ℤ), (0:ℤ)) = r := rfl

theorem unit_map_up (r γ : ℚ) :
    (unitMaze r γ).action_next_state_map ((0:ℤ), (0:ℤ)) MazeActions.UP =
      [(MazeActions.UP, ((0:ℤ), (0:ℤ)), 4/5),
       (MazeActions.LEFT, ((0:ℤ), (0:ℤ)), 1/10),
       (MazeActions.RIGHT, ((0:ℤ), (0:ℤ)), 1/10)] := rfl

theorem unit_map_down (r γ : ℚ) :
    (unitMaze r γ).action_next_state_map ((0:ℤ), (0:ℤ)) MazeActions.DOWN =
      [(MazeActions.DOWN, ((0:ℤ), (0:ℤ)), 4/5),
       (MazeActions.LEFT, ((0:ℤ), (0:ℤ)), 1/10),
       (MazeActions.RIGHT, ((0:ℤ), (0:ℤ)), 1/10)] := rfl

theorem unit_map_left (r γ : ℚ) :
    (unitMaze r γ).action_next_state_map ((0:ℤ), (0:ℤ)) MazeActions.LEFT =
      [(MazeActions.LEFT, ((0:ℤ), (0:ℤ)), 4/5),
       (MazeActions.UP, ((0:ℤ), (0:ℤ)), 1/10),
       (MazeActions.DOWN, ((0:ℤ), (0:ℤ)), 1/10)] := rfl

theorem unit_map_right (r γ : ℚ) :
    (unitMaze r γ).action_next_state_map ((0:ℤ), (0:ℤ)) MazeActions.RIGHT =
      [(MazeActions.RIGHT, ((0:ℤ), (0:ℤ)), 4/5),
       (MazeActions.UP, ((0:ℤ), (0:ℤ)), 1/10),
       (MazeActions.DOWN, ((0:ℤ), (0:ℤ)), 1/10)] := rfl

theorem unit_eu (r γ : ℚ) (a : MazeActions) (U : State → ℚ) :
    get_expected_utility (unitMaze r γ) ((0:ℤ), (0:ℤ)) a U = U ((0:ℤ), (0:ℤ)) := by
  cases a
  · rw [get_expected_utility, unit_map_up]
    show (4/5 : ℚ) * U ((0:ℤ), (0:ℤ)) + ((1/10) * U ((0:ℤ), (0:ℤ))
      + ((1/10) * U ((0:ℤ), (0:ℤ)) + 0)) = U ((0:ℤ), (0:ℤ))
    ring
  · rw [get_expected_utility, unit_map_down]
    show (4/5 : ℚ) * U ((0:ℤ), (0:ℤ)) + ((1/10) * U ((0:ℤ), (0:ℤ))
      + ((1/10) * U ((0:ℤ), (0:ℤ)) + 0)) = U ((0:ℤ), (0:ℤ))
    ring
  · rw [get_expected_utility, unit_map_left]
    show (4/5 : ℚ) * U ((0:ℤ), (0:ℤ)) + ((1/10) * U ((0:ℤ), (0:ℤ))
      + ((1/10) * U ((0:ℤ), (0:ℤ)) + 0)) = U ((0:ℤ), (0:ℤ))
    ring
  · rw [get_expected_utility, unit_map_right]
    show (4/5 : ℚ) * U ((0:ℤ), (0:ℤ)) + ((1/10) * U ((0:ℤ), (0:ℤ))
      + ((1/10) * U ((0:ℤ), (0:ℤ)) + 0)) = U ((0:ℤ), (0:ℤ))
    ring

theorem unit_bellman (r γ : ℚ) (U : State → ℚ) :
    bellman_equation (unitMaze r γ) ((0:ℤ), (0:ℤ)) U =
      some (r + γ * U ((0:ℤ), (0:ℤ)), MazeActions.UP) := by
  have hkeys : (unitMaze r γ).actionKeys ((0:ℤ), (0:ℤ)) = allMazeActions := rfl
  have hdf : (unitMaze r γ).discount_factor = γ := rfl
  rw [bellman_equation, hkeys]
  simp only [allMazeActions, argmax_list, argmax_go, unit_eu, lt_self_iff_false, if_false,
    Option.map_some', unit_reward, hdf]

theorem unit_sweep (r γ : ℚ) (U : State → ℚ) (pol : State → Option MazeActions) :
    vi_sweep (unitMaze r γ) U pol =
      some ⟨Function.update U ((0:ℤ), (0:ℤ)) (r + γ * U ((0:ℤ), (0:ℤ))),
            Function.update pol ((0:ℤ), (0:ℤ)) (some MazeActions.UP),
            max 0 |r + γ * U ((0:ℤ), (0:ℤ)) - U ((0:ℤ), (0:ℤ))|⟩ := by
  rw [vi_sweep, unit_states]
  simp only [vi_sweep_go, unit_bellman]

theorem unit_delta_eq (r γ u : ℚ) : |r + γ * u - u| = |r - (1 - γ) * u| := by
  have h : r + γ * u - u = r - (1 - γ) * u := by ring
  rw [h]

theorem unit_vi_terminates (r γ ε : ℚ) (hγ0 : 0 < γ) (hγ1 : γ < 1) (hε : 0 < ε) :
    ∀ (n : ℕ) (U : State → ℚ) (pol : State → Option MazeActions) (hist : State → List ℚ),
      |r - (1 - γ) * U ((0:ℤ), (0:ℤ))| * γ ^ n < ε * (1 - γ) / γ →
      ∃ res, vi_loop (unitMaze r γ) ε U pol hist (n + 1) = some res := by
  have hdf : (unitMaze r γ).discount_factor = γ := rfl
  have hthr : 0 < ε * (1 - γ) / γ := div_pos (mul_pos hε (by linarith)) hγ0
  intro n
  induction n with
  | zero =>
    intro U pol hist hlt
    rw [pow_zero, mul_one] at hlt
    refine Option.isSome_iff_exists.mp ?_
    simp only [vi_loop, unit_sweep, hdf]
    rw [if_pos (by rw [unit_delta_eq]; exact max_lt hthr hlt),
      if_pos (by rw [unit_states]; exact List.mem_singleton_self _)]
    rfl
  | succ m ih =>
    intro U pol hist hlt
    by_cases hbr : max 0 |r + γ * U ((0:ℤ), (0:ℤ)) - U ((0:ℤ), (0:ℤ))| < ε * (1 - γ) / γ
    · refine Option.isSome_iff_exists.mp ?_
      simp only [vi_loop, unit_sweep, hdf]
      rw [if_pos hbr, if_pos (by rw [unit_states]; exact List.mem_singleton_self _)]
      rfl
    · have hstep : vi_loop (unitMaze r γ) ε U pol hist (m + 1 + 1) =
          vi_loop (unitMaze r γ) ε
            (Function.update U ((0:ℤ), (0:ℤ)) (r + γ * U ((0:ℤ), (0:ℤ))))
            (Function.update pol ((0:ℤ), (0:ℤ)) (some MazeActions.UP))
            (record_hist (unitMaze r γ).states hist U) (m + 1) := by
        simp only [vi_loop, unit_sweep, hdf]
        rw [if_neg hbr]
      rw [hstep]
      apply ih
      rw [Function.update_same]
      have harg : r - (1 - γ) * (r + γ * U ((0:ℤ), (0:ℤ)))
          = γ * (r - (1 - γ) * U ((0:ℤ), (0:ℤ))) := by ring
      rw [harg, abs_mul, abs_of_pos hγ0, pow_succ] at *
      calc γ * |r - (1 - γ) * U ((0:ℤ), (0:ℤ))| * γ ^ m
      _ = |r - (1 - γ) * U ((0:ℤ), (0:ℤ))| * (γ ^ m * γ) := by ring
      _ < ε * (1 - γ) / γ := hlt

theorem unit_vi_bound (r γ ε : ℚ) (hγ0 : 0 < γ) (hγ1 : γ < 1) :
    ∀ (fuel : ℕ) (U : State → ℚ) (pol : State → Option MazeActions)
      (hist : State → List ℚ) (res : SolveResult),
      vi_loop (unitMaze r γ) ε U pol hist fuel = some res →
      |res.converged_utilities ((0:ℤ), (0:ℤ)) - r / (1 - γ)| < ε / γ := by
  have hdf : (unitMaze r γ).discount_factor = γ := rfl
  have h1γ : 0 < 1 - γ := by linarith
  intro fuel
  induction fuel with
  | zero => intro U pol hist res h; exact absurd h (by simp [vi_loop])
  | succ m ih =>
    intro U pol hist res h
    simp only [vi_loop, unit_sweep, hdf] at h
    by_cases hbr : max 0 |r + γ * U ((0:ℤ), (0:ℤ)) - U ((0:ℤ), (0:ℤ))| < ε * (1 - γ) / γ
    · rw [if_pos hbr, if_pos (by rw [unit_states]; exact List.mem_singleton_self _)] at h
      cases h
      dsimp only
      have hd : |r - (1 - γ) * U ((0:ℤ), (0:ℤ))| < ε * (1 - γ) / γ := by
        rw [← unit_delta_eq]
        exact lt_of_le_of_lt (le_max_right _ _) hbr
      rw [← mul_lt_mul_right h1γ]
      have hkey : |U ((0:ℤ), (0:ℤ)) - r / (1 - γ)| * (1 - γ)
          = |r - (1 - γ) * U ((0:ℤ), (0:ℤ))| := by
        rw [← abs_of_pos h1γ, ← abs_mul]
        rw [abs_of_pos h1γ]
        have hexp : (U ((0:ℤ), (0:ℤ)) - r / (1 - γ)) * (1 - γ)
            = -(r - (1 - γ) * U ((0:ℤ), (0:ℤ))) := by
          field_simp
          ring
        rw [hexp, abs_neg]
      rw [hkey]
      calc |r - (1 - γ) * U ((0:ℤ), (0:ℤ))| < ε * (1 - γ) / γ := hd
      _ = ε / γ * (1 - γ) := by ring
    · rw [if_neg hbr] at h
      exact ih _ _ _ res h

/-! ### Spec-side vocabulary for the stochastic drift model -/

/-- Spec-side: the two directions perpendicular to a given action. -/
def perpendicular : MazeActions → MazeActions × MazeActions
  | MazeActions.UP => (MazeActions.LEFT, MazeActions.RIGHT)
  | MazeActions.DOWN => (MazeActions.LEFT, MazeActions.RIGHT)
  | MazeActions.LEFT => (MazeActions.UP, MazeActions.DOWN)
  | MazeActions.RIGHT => (MazeActions.UP, MazeActions.DOWN)

/-- Spec-side: the reverse of a direction. -/
def reverse_of : MazeActions → MazeActions
  | MazeActions.UP => MazeActions.DOWN
  | MazeActions.DOWN => MazeActions.UP
  | MazeActions.LEFT => MazeActions.RIGHT
  | MazeActions.RIGHT => MazeActions.LEFT

/-- Spec-side: the nominal neighbour cell in a given direction. -/
def nominal_next (s : State) : MazeActions → State
  | MazeActions.UP => (s.1 - 1, s.2)
  | MazeActions.DOWN => (s.1 + 1, s.2)
  | MazeActions.LEFT => (s.1, s.2 - 1)
  | MazeActions.RIGHT => (s.1, s.2 + 1)

/-- Spec-side: the realized outcome cell — the nominal neighbour, replaced by
staying in the current state when that neighbour is a wall or off-grid. -/
def resolve (env : Env) (s : State) (a : MazeActions) : State :=
  if is_wall env (nominal_next s a) then s else nominal_next s a

/-- Spec-side reference definition of expected utility (from the spec
sentence): the sum over the FULL action space of transition probability times
the utility of the corresponding realized outcome cell. -/
def expected_utility_full_sum (env : Env) (s : State) (a : MazeActions)
    (U : State → ℚ) : ℚ :=
  (allMazeActions.map (fun a2 => mazeTransitionModel env s a a2 * U (resolve env s a2))).sum

/-- An outcome cell of the form `if wall then stay else step` is always a
valid cell when the current state is valid. -/
theorem stay_or_step (env : Env) (s x : State) (hs : is_wall env s = false) :
    is_wall env (if is_wall env x then s else x) = false := by
  split
  · exact hs
  · next h => simpa using h

/-- C2: for every maze built by the grid-MDP constructor, every valid
(non-wall, in-bounds) state s and every action a, the outcome map for (s, a)
has exactly three entries (three distinct actual-action keys) whose
probabilities sum to exactly 1, and every stored next_state is itself a
valid state. (The table is built once by the constructor and, being a pure
value in this embedding, is never mutated afterwards.) -/
theorem maze_outcome_invariant (env : Env) (s : State) (hs : is_wall env s = false)
    (a : MazeActions) :
    (get_next_state_probabilities env s a).length = 3
    ∧ ((get_next_state_probabilities env s a).map (fun e => e.2.2)).sum = 1
    ∧ ((get_next_state_probabilities env s a).map Prod.fst).Nodup
    ∧ ∀ e ∈ get_next_state_probabilities env s a, is_wall env e.2.1 = false := by
  cases a <;>
    refine ⟨rfl, by norm_num [get_next_state_probabilities],
      by simp only [get_next_state_probabilities, List.map]; decide, ?_⟩ <;>
    · intro e he
      simp only [get_next_state_probabilities, List.mem_cons, List.not_mem_nil,
        or_false] at he
      rcases he with rfl | rfl | rfl <;> exact stay_or_step env s _ hs

/-- C2 witness: the invariant instantiated on a concrete 2×2 maze with a
wall, at state (0,0) and action RIGHT. -/
theorem maze_outcome_invariant_witness :
    is_wall [[some 1, none], [some 0, some 2]] ((0:ℤ), (0:ℤ)) = false
    ∧ ((get_next_state_probabilities [[some 1, none], [some 0, some 2]]
          ((0:ℤ), (0:ℤ)) MazeActions.RIGHT).length = 3
      ∧ ((get_next_state_probabilities [[some 1, none], [some 0, some 2]]
          ((0:ℤ), (0:ℤ)) MazeActions.RIGHT).map (fun e => e.2.2)).sum = 1
      ∧ ((get_next_state_probabilities [[some 1, none], [some 0, some 2]]
          ((0:ℤ), (0:ℤ)) MazeActions.RIGHT).map Prod.fst).Nodup
      ∧ ∀ e ∈ get_next_state_probabilities [[some 1, none], [some 0, some 2]]
          ((0:ℤ), (0:ℤ)) MazeActions.RIGHT, is_wall [[some 1, none], [some 0, some 2]] e.2.1 = false) :=
  ⟨rfl, maze_outcome_invariant [[some 1, none], [some 0, some 2]] ((0:ℤ), (0:ℤ))
    rfl MazeActions.RIGHT⟩

/-- C6: for every valid state and intended action, the outcome distribution is
exactly: the intended direction with probability 0.8 and the two directions
perpendicular to it with probability 0.1 each, each outcome resolving to the
nominal neighbour or staying in place when that neighbour is a wall or
off-grid; the reverse direction never appears among the outcome keys. -/
theorem maze_drift_perpendicular (env : Env) (s : State) (hs : is_wall env s = false)
    (a : MazeActions) :
    get_next_state_probabilities env s a =
      [(a, resolve env s a, 4/5),
       ((perpendicular a).1, resolve env s (perpendicular a).1, 1/10),
       ((perpendicular a).2, resolve env s (perpendicular a).2, 1/10)]
    ∧ reverse_of a ∉ (get_next_state_probabilities env s a).map Prod.fst := by
  cases a <;>
    exact ⟨rfl, by simp [get_next_state_probabilities, reverse_of]⟩

/-- C6 witness: instantiated on the concrete 2×2 maze at (0,0), action DOWN. -/
theorem maze_drift_perpendicular_witness :
    is_wall [[some 1, none], [some 0, some 2]] ((0:ℤ), (0:ℤ)) = false
    ∧ (get_next_state_probabilities [[some 1, none], [some 0, some 2]]
          ((0:ℤ), (0:ℤ)) MazeActions.DOWN =
        [(MazeActions.DOWN, resolve [[some 1, none], [some 0, some 2]] ((0:ℤ), (0:ℤ)) MazeActions.DOWN, 4/5),
         ((perpendicular MazeActions.DOWN).1,
            resolve [[some 1, none], [some 0, some 2]] ((0:ℤ), (0:ℤ)) (perpendicular MazeActions.DOWN).1, 1/10),
         ((perpendicular MazeActions.DOWN).2,
            resolve [[some 1, none], [some 0, some 2]] ((0:ℤ), (0:ℤ)) (perpendicular MazeActions.DOWN).2, 1/10)]
      ∧ reverse_of MazeActions.DOWN ∉
          (get_next_state_probabilities [[some 1, none], [some 0, some 2]]
            ((0:ℤ), (0:ℤ)) MazeActions.DOWN).map Prod.fst) :=
  ⟨rfl, maze_drift_perpendicular [[some 1, none], [some 0, some 2]] ((0:ℤ), (0:ℤ))
    rfl MazeActions.DOWN⟩

/-- C9: on the grid MDP, `get_expected_utility` (which iterates only over the
outcomes actually stored for (state, action)) returns the same value as the
reference definition summing over the full action space, since
`transition_model` returns 0 for every actual action not among the stored
outcomes. -/
theorem get_expected_utility_eq_full_sum (env : Env) (start_state : State)
    (discount_factor : ℚ) (s : State) (hs : is_wall env s = false)
    (a : MazeActions) (U : State → ℚ) :
    get_expected_utility (mazeMDP env start_state discount_factor) s a U =
      expected_utility_full_sum env s a U := by
  cases a
  · show (4/5 : ℚ) * U (resolve env s MazeActions.UP)
        + ((1/10) * U (resolve env s MazeActions.LEFT)
        + ((1/10) * U (resolve env s MazeActions.RIGHT) + 0))
      = (4/5 : ℚ) * U (resolve env s MazeActions.UP)
        + (0 * U (resolve env s MazeActions.DOWN)
        + ((1/10) * U (resolve env s MazeActions.LEFT)
        + ((1/10) * U (resolve env s MazeActions.RIGHT) + 0)))
    ring
  · show (4/5 : ℚ) * U (resolve env s MazeActions.DOWN)
        + ((1/10) * U (resolve env s MazeActions.LEFT)
        + ((1/10) * U (resolve env s MazeActions.RIGHT) + 0))
      = 0 * U (resolve env s MazeActions.UP)
        + ((4/5 : ℚ) * U (resolve env s MazeActions.DOWN)
        + ((1/10) * U (resolve env s MazeActions.LEFT)
        + ((1/10) * U (resolve env s MazeActions.RIGHT) + 0)))
    ring
  · show (4/5 : ℚ) * U (resolve env s MazeActions.LEFT)
        + ((1/10) * U (resolve env s MazeActions.UP)
        + ((1/10) * U (resolve env s MazeActions.DOWN) + 0))
      = (1/10 : ℚ) * U (resolve env s MazeActions.UP)
        + ((1/10) * U (resolve env s MazeActions.DOWN)
        + ((4/5) * U (resolve env s MazeActions.LEFT)
        + (0 * U (resolve env s MazeActions.RIGHT) + 0)))
    ring
  · show (4/5 : ℚ) * U (resolve env s MazeActions.RIGHT)
        + ((1/10) * U (resolve env s MazeActions.UP)
        + ((1/10) * U (resolve env s MazeActions.DOWN) + 0))
      = (1/10 : ℚ) * U (resolve env s MazeActions.UP)
        + ((1/10) * U (resolve env s MazeActions.DOWN)
        + (0 * U (resolve env s MazeActions.LEFT)
        + ((4/5) * U (resolve env s MazeActions.RIGHT) + 0)))
    ring

/-- C9 witness: the refinement equation instantiated on the concrete 2×2 maze
with the utility table counting column index. -/
theorem get_expected_utility_eq_full_sum_witness :
    is_wall [[some 1, none], [some 0, some 2]] ((1:ℤ), (0:ℤ)) = false
    ∧ get_expected_utility (mazeMDP [[some 1, none], [some 0, some 2]] ((0:ℤ), (0:ℤ)) (9/10))
        ((1:ℤ), (0:ℤ)) MazeActions.RIGHT (fun s => (s.2 : ℚ)) =
      expected_utility_full_sum [[some 1, none], [some 0, some 2]] ((1:ℤ), (0:ℤ))
        MazeActions.RIGHT (fun s => (s.2 : ℚ)) :=
  ⟨rfl, get_expected_utility_eq_full_sum [[some 1, none], [some 0, some 2]] ((0:ℤ), (0:ℤ))
    (9/10) ((1:ℤ), (0:ℤ)) rfl MazeActions.RIGHT (fun s => (s.2 : ℚ))⟩

/-- C8 counterexample: on the 1×2 maze with a wall at (0,1),
`reward_function` applied to the wall state (0,1) does NOT fail: it returns
the stored wall marker (`None`) as a normal value; and on a 1×2 maze without
a wall, `reward_function` at the out-of-bounds coordinate (0,-1) returns the
last cell's reward via Python's negative-index wrap-around instead of
failing. -/
theorem reward_function_no_fail_cex :
    is_wall [[some (3/2), none]] ((0:ℤ), (1:ℤ)) = true
    ∧ reward_function_checked [[some (3/2), none]] ((0:ℤ), (1:ℤ)) = some none
    ∧ is_wall [[some (3/2), some 2]] ((0:ℤ), (-1:ℤ)) = true
    ∧ reward_function_checked [[some (3/2), some 2]] ((0:ℤ), (-1:ℤ)) = some (some 2) :=
  ⟨rfl, rfl, rfl, rfl⟩

/-- C8 (amended): for every state outside the valid state set,
`transition_model` does fail immediately (the `self.states` lookup raises
`KeyError`); `reward_function`, however, performs no validity check at all —
whenever Python indexing succeeds (in particular for every in-bounds wall
cell, whose stored marker it returns, and for negative coordinates within
wrap-around range) it returns a normal value, and it raises only when an
index is out of Python's indexing range. -/
theorem invalid_state_queries (env : Env) (s : State) (hs : is_wall env s = true)
    (i a : MazeActions) :
    transition_model_checked env s i a = none
    ∧ (∀ row, pyIndex env s.1 = some row → ∀ cell, pyIndex row s.2 = some cell →
        reward_function_checked env s = some cell) := by
  constructor
  · have hmem : s ∉ mazeStates env := by
      intro hmem
      have hp := List.of_mem_filter hmem
      rw [hs] at hp
      exact absurd hp (by simp)
    rw [transition_model_checked, if_neg hmem]
  · intro row hrow cell hcell
    rw [reward_function_checked, hrow]
    exact hcell

/-- C8 witness: instantiated at the wall state (0,1) of the 1×2 maze. -/
theorem invalid_state_queries_witness :
    is_wall [[some (3/2), none]] ((0:ℤ), (1:ℤ)) = true
    ∧ (transition_model_checked [[some (3/2), none]] ((0:ℤ), (1:ℤ))
          MazeActions.UP MazeActions.UP = none
      ∧ (∀ row, pyIndex [[some (3/2), none]] (0:ℤ) = some row →
          ∀ cell, pyIndex row (1:ℤ) = some cell →
            reward_function_checked [[some (3/2), none]] ((0:ℤ), (1:ℤ)) = some cell)) :=
  ⟨rfl, invalid_state_queries [[some (3/2), none]] ((0:ℤ), (1:ℤ)) rfl
    MazeActions.UP MazeActions.UP⟩

/-- C1: each value-iteration sweep computes, for every state, the Bellman
backup U'(s) = R(s) + γ · max over the state's actions of the expected
utility computed from the snapshot U taken at the start of the sweep (the
formula reads only U — no in-place/Gauss-Seidel update), and the loop body
exits (returning a result rather than iterating on) exactly when the residual
max over states of the absolute utility change is strictly below
max_error · (1 − γ)/γ. -/
theorem value_iteration_sweep_snapshot_and_stop (mdp : MDP) (max_error : ℚ)
    (hne : ∀ t ∈ mdp.states, mdp.actionKeys t ≠ [])
    (hstart : mdp.start_state ∈ mdp.states)
    (U : State → ℚ) (pol : State → Option MazeActions) (hist : State → List ℚ)
    (s : State) (hs : s ∈ mdp.states) :
    ∃ out, vi_sweep mdp U pol = some out
      ∧ (∃ M : ℚ, (((mdp.actionKeys s).map (fun a => get_expected_utility mdp s a U)).maximum
            = (M : WithBot ℚ))
          ∧ out.newU s = mdp.reward_function s + mdp.discount_factor * M)
      ∧ (vi_loop mdp max_error U pol hist 1 ≠ none ↔
          0 < max_error * (1 - mdp.discount_factor) / mdp.discount_factor
          ∧ ∀ t ∈ mdp.states, |out.newU t - U t|
              < max_error * (1 - mdp.discount_factor) / mdp.discount_factor) := by
  rcases vi_sweep_go_some mdp U mdp.states hne ⟨U, pol, 0⟩ with ⟨out, hout⟩
  have hvals := vi_sweep_go_values mdp U mdp.states _ out hout
  refine ⟨out, hout, ?_, ?_⟩
  · rcases (hvals s).1 hs with ⟨p, hbell, hnew, _⟩
    rcases bellman_equation_some mdp s U (hne s hs) with ⟨m, b, harg, hbell2⟩
    rw [hbell2] at hbell
    cases hbell
    exact ⟨m, argmax_list_maximum _ _ _ harg, hnew⟩
  · have hdelta := vi_sweep_go_delta_lt mdp U
      (max_error * (1 - mdp.discount_factor) / mdp.discount_factor) mdp.states _ out hout
    have hstep : vi_loop mdp max_error U pol hist 1 ≠ none ↔
        out.delta < max_error * (1 - mdp.discount_factor) / mdp.discount_factor := by
      simp only [vi_loop, vi_sweep] at *
      rw [hout]
      dsimp only
      constructor
      · intro hne2
        by_contra hbr
        rw [if_neg hbr] at hne2
        exact hne2 rfl
      · intro hbr
        rw [if_pos hbr, if_pos hstart]
        simp
    rw [hstep, hdelta]
    constructor
    · rintro ⟨h0, hall⟩
      refine ⟨by simpa using h0, ?_⟩
      intro t ht
      rcases (hvals t).1 ht with ⟨p, hbell, hnew, _⟩
      rw [hnew]
      exact hall t ht p hbell
    · rintro ⟨h0, hall⟩
      refine ⟨by simpa using h0, ?_⟩
      intro t ht p hbell
      rcases (hvals t).1 ht with ⟨p2, hbell2, hnew, _⟩
      rw [hbell2] at hbell
      cases hbell
      rw [← hnew]
      exact hall t ht

/-- C1 witness: instantiated on the 1×1 zero-reward maze with γ = 1/2,
ε = 1, at the all-zero utility snapshot. -/
theorem value_iteration_sweep_snapshot_and_stop_witness :
    (∀ t ∈ (unitMaze 0 (1/2)).states, (unitMaze 0 (1/2)).actionKeys t ≠ [])
    ∧ (unitMaze 0 (1/2)).start_state ∈ (unitMaze 0 (1/2)).states
    ∧ ((0:ℤ), (0:ℤ)) ∈ (unitMaze 0 (1/2)).states
    ∧ ∃ out, vi_sweep (unitMaze 0 (1/2)) (fun _ => 0) (fun _ => none) = some out
      ∧ (∃ M : ℚ, ((((unitMaze 0 (1/2)).actionKeys ((0:ℤ), (0:ℤ))).map
            (fun a => get_expected_utility (unitMaze 0 (1/2)) ((0:ℤ), (0:ℤ)) a (fun _ => 0))).maximum
            = (M : WithBot ℚ))
          ∧ out.newU ((0:ℤ), (0:ℤ)) = (unitMaze 0 (1/2)).reward_function ((0:ℤ), (0:ℤ))
              + (unitMaze 0 (1/2)).discount_factor * M)
      ∧ (vi_loop (unitMaze 0 (1/2)) 1 (fun _ => 0) (fun _ => none) (fun _ => []) 1 ≠ none ↔
          0 < 1 * (1 - (unitMaze 0 (1/2)).discount_factor) / (unitMaze 0 (1/2)).discount_factor
          ∧ ∀ t ∈ (unitMaze 0 (1/2)).states, |out.newU t - (fun _ => (0:ℚ)) t|
              < 1 * (1 - (unitMaze 0 (1/2)).discount_factor) / (unitMaze 0 (1/2)).discount_factor) :=
  ⟨by decide, by decide, by decide,
    value_iteration_sweep_snapshot_and_stop (unitMaze 0 (1/2)) 1 (by decide) (by decide)
      (fun _ => 0) (fun _ => none) (fun _ => []) ((0:ℤ), (0:ℤ)) (by decide)⟩

/-- C3 counterexample: invoked with discount factor 1 on the 1×1 maze with
reward 1, value_iteration does NOT fail before entering its iteration loop —
the first sweep completes normally — and the call never returns for any
amount of fuel, i.e. it loops forever instead of rejecting the input. -/
theorem value_iteration_gamma_one_cex :
    (vi_sweep (unitMaze 1 1) (fun _ => 0) (fun _ => none)).isSome = true
    ∧ ¬ ∃ (fuel : ℕ) (res : SolveResult), value_iteration (unitMaze 1 1) 1 fuel = some res := by
  constructor
  · with_unfolding_all rfl
  · rintro ⟨fuel, res, h⟩
    have h2 : value_iteration (unitMaze 1 1) 1 fuel = none :=
      vi_loop_none_of_one_le (unitMaze 1 1) 1 (le_refl 1) one_pos fuel _ _ _
    rw [h2] at h
    exact absurd h (by simp)

/-- C3 (amended): value_iteration performs no precondition check on the
discount factor; for every MDP with discount factor ≥ 1 and positive
max_error the stopping threshold max_error·(1−γ)/γ is ≤ 0 while the residual
is always ≥ 0, so the loop never exits: the call never returns, for any
amount of fuel (it neither rejects the input nor divides by zero — it loops
forever). -/
theorem value_iteration_diverges_ge_one (mdp : MDP) (max_error : ℚ)
    (hγ : 1 ≤ mdp.discount_factor) (hε : 0 < max_error) (fuel : ℕ) :
    value_iteration mdp max_error fuel = none :=
  vi_loop_none_of_one_le mdp max_error hγ hε fuel _ _ _

/-- C3 witness: the divergence theorem instantiated at the 1×1 maze with
γ = 1 and fuel 5. -/
theorem value_iteration_diverges_ge_one_witness :
    1 ≤ (unitMaze 1 1).discount_factor ∧ (0:ℚ) < 1
    ∧ value_iteration (unitMaze 1 1) 1 5 = none :=
  ⟨le_refl 1, one_pos, value_iteration_diverges_ge_one (unitMaze 1 1) 1 (le_refl 1) one_pos 5⟩

/-- C5: for every MDP (with nonempty per-state action sets) and every
terminating run of value_iteration, the returned policy is greedy-consistent
with the returned utilities: at every state the policy's action attains the
maximal expected utility computed from the returned converged utilities, so
no action has strictly higher expected utility. -/
theorem value_iteration_greedy (mdp : MDP) (max_error : ℚ) (fuel : ℕ) (res : SolveResult)
    (h : value_iteration mdp max_error fuel = some res)
    (hne : ∀ t ∈ mdp.states, mdp.actionKeys t ≠ [])
    (s : State) (hs : s ∈ mdp.states) :
    ∃ b, res.optimal_policy s = some b
      ∧ ∀ a ∈ mdp.actionKeys s,
          get_expected_utility mdp s a res.converged_utilities ≤
            get_expected_utility mdp s b res.converged_utilities := by
  rcases vi_loop_last_sweep mdp max_error fuel _ _ _ res h with ⟨U0, pol0, out, hsw, hU, hpol⟩
  rcases (vi_sweep_go_values mdp U0 mdp.states _ out hsw s).1 hs with ⟨p, hbell, _, hpols⟩
  rcases bellman_equation_some mdp s U0 (hne s hs) with ⟨m, b, harg, hbell2⟩
  rw [hbell2] at hbell
  cases hbell
  refine ⟨b, by rw [hpol]; exact hpols, ?_⟩
  intro a ha
  rw [hU]
  have hle := argmax_list_le _ _ _ harg a ha
  rcases argmax_list_mem _ _ _ harg with ⟨_, hbeq⟩
  dsimp only at hbeq hle
  rw [hbeq] at hle
  exact hle

/-- The value-iteration probe run on the 1×1 zero-reward maze, used to
instantiate theorems whose hypotheses mention a terminating run. -/
def viProbe : SolveResult :=
  (value_iteration (unitMaze 0 (1/2)) 1 2).getD
    ⟨fun _ => 0, fun _ => none, 0, fun _ => []⟩

theorem viProbe_run : value_iteration (unitMaze 0 (1/2)) 1 2 = some viProbe := by
  with_unfolding_all rfl

/-- C5 witness: greedy consistency instantiated on the terminating probe run. -/
theorem value_iteration_greedy_witness :
    value_iteration (unitMaze 0 (1/2)) 1 2 = some viProbe
    ∧ (∀ t ∈ (unitMaze 0 (1/2)).states, (unitMaze 0 (1/2)).actionKeys t ≠ [])
    ∧ ((0:ℤ), (0:ℤ)) ∈ (unitMaze 0 (1/2)).states
    ∧ ∃ b, viProbe.optimal_policy ((0:ℤ), (0:ℤ)) = some b
      ∧ ∀ a ∈ (unitMaze 0 (1/2)).actionKeys ((0:ℤ), (0:ℤ)),
          get_expected_utility (unitMaze 0 (1/2)) ((0:ℤ), (0:ℤ)) a viProbe.converged_utilities ≤
            get_expected_utility (unitMaze 0 (1/2)) ((0:ℤ), (0:ℤ)) b viProbe.converged_utilities :=
  ⟨viProbe_run, by decide, by decide,
    value_iteration_greedy (unitMaze 0 (1/2)) 1 2 viProbe viProbe_run
      (by decide) ((0:ℤ), (0:ℤ)) (by decide)⟩

/-- C10: for every MDP with a nonempty action set at each state, every
terminating run of either solver returns a policy mapping every state to an
actual action, never to the `None` placeholder. -/
theorem solvers_policy_total (mdp : MDP)
    (hne : ∀ t ∈ mdp.states, mdp.actionKeys t ≠ []) :
    (∀ (max_error : ℚ) (fuel : ℕ) (res : SolveResult),
        value_iteration mdp max_error fuel = some res →
        ∀ s ∈ mdp.states, res.optimal_policy s ≠ none)
    ∧ (∀ (k fuel : ℕ) (res : SolveResult) (n : ℕ),
        policy_iteration mdp k fuel = some (res, n) →
        ∀ s ∈ mdp.states, res.optimal_policy s ≠ none) := by
  constructor
  · intro max_error fuel res h s hs
    rcases vi_loop_last_sweep mdp max_error fuel _ _ _ res h with ⟨U0, pol0, out, hsw, _, hpol⟩
    rcases (vi_sweep_go_values mdp U0 mdp.states _ out hsw s).1 hs with ⟨p, _, _, hpols⟩
    rw [hpol, hpols]
    simp
  · intro k fuel res n h s _
    exact pi_loop_policy_some mdp k fuel _ _ _ 0 res n h (fun t => by simp) s

/-- C10 witness: instantiated on the 1×1 zero-reward maze, with the probe
runs of both solvers. -/
theorem solvers_policy_total_witness :
    (∀ t ∈ (unitMaze 0 (1/2)).states, (unitMaze 0 (1/2)).actionKeys t ≠ [])
    ∧ ((∀ (max_error : ℚ) (fuel : ℕ) (res : SolveResult),
        value_iteration (unitMaze 0 (1/2)) max_error fuel = some res →
        ∀ s ∈ (unitMaze 0 (1/2)).states, res.optimal_policy s ≠ none)
      ∧ (∀ (k fuel : ℕ) (res : SolveResult) (n : ℕ),
        policy_iteration (unitMaze 0 (1/2)) k fuel = some (res, n) →
        ∀ s ∈ (unitMaze 0 (1/2)).states, res.optimal_policy s ≠ none)) :=
  ⟨by decide, solvers_policy_total (unitMaze 0 (1/2)) (by decide)⟩

/-- C4 counterexample: on the 1×1 zero-reward maze with k = 1 evaluation per
improvement, policy_iteration terminates after one outer loop; the Python
local that accumulates evaluation rounds ends at 1, but the num_iterations
field of the returned result is 2 (the history length, which includes the
seeded zeroth entry) — not the number of evaluation rounds performed. -/
theorem policy_iteration_count_cex :
    (policy_iteration (unitMaze 0 (1/2)) 1 3).map
        (fun p => (p.1.num_iterations, p.2)) = some (2, 1)
    ∧ (2 : ℕ) ≠ 1 :=
  ⟨by with_unfolding_all decide, by decide⟩

/-- C4 (amended): for every terminating run of policy_iteration with
evaluation count k ≥ 1, the num_iterations field of the returned result
equals 1 plus the total number of policy-evaluation rounds actually performed
(the rounds are k per outer loop; the extra 1 is the seeded zeroth history
entry), and this same field equals the length of each state's list in the
returned iteration history. -/
theorem policy_iteration_count (mdp : MDP) (k fuel : ℕ) (res : SolveResult) (n : ℕ)
    (hk : 1 ≤ k) (h : policy_iteration mdp k fuel = some (res, n)) :
    res.num_iterations = n + 1 ∧ (∃ m, 1 ≤ m ∧ n = k * m)
      ∧ ∀ s ∈ mdp.states, (res.iteration_utilities s).length = n + 1 := by
  refine pi_loop_count mdp k fuel _ _ _ 0 res n h ?_ ⟨0, by ring⟩
  intro s hs
  show (if s ∈ mdp.states then [(0:ℚ)] else []).length = 0 + 1
  rw [if_pos hs]
  rfl

/-- The policy-iteration probe run on the 1×1 zero-reward maze. -/
def piProbe : SolveResult × ℕ :=
  (policy_iteration (unitMaze 0 (1/2)) 1 3).getD
    (⟨fun _ => 0, fun _ => none, 0, fun _ => []⟩, 0)

theorem piProbe_run : policy_iteration (unitMaze 0 (1/2)) 1 3 = some piProbe := by
  with_unfolding_all rfl

/-- C4 witness: the iteration-count bookkeeping instantiated on the probe
run of policy_iteration. -/
theorem policy_iteration_count_witness :
    1 ≤ 1
    ∧ policy_iteration (unitMaze 0 (1/2)) 1 3 = some (piProbe.1, piProbe.2)
    ∧ (piProbe.1.num_iterations = piProbe.2 + 1 ∧ (∃ m, 1 ≤ m ∧ piProbe.2 = 1 * m)
      ∧ ∀ s ∈ (unitMaze 0 (1/2)).states,
          (piProbe.1.iteration_utilities s).length = piProbe.2 + 1) :=
  ⟨le_refl 1, by rw [piProbe_run],
    policy_iteration_count (unitMaze 0 (1/2)) 1 3 piProbe.1 piProbe.2 (le_refl 1)
      (by rw [piProbe_run])⟩

/-- C7 counterexample: on the 1×1 grid with reward 1, γ = 1/2 and requested
max_error = 3/10, value_iteration terminates and returns converged utility
3/2, while the exact fixed point r/(1−γ) equals 2: the error is 1/2, which
exceeds the requested bound 3/10. (The code returns the pre-final-sweep
snapshot of the utilities, so only the weaker bound max_error/γ holds.) -/
theorem unit_maze_error_cex :
    (value_iteration (unitMaze 1 (1/2)) (3/10) 4).map
        (fun res => res.converged_utilities ((0:ℤ), (0:ℤ))) = some (3/2)
    ∧ ¬ |(3/2 : ℚ) - 1 / (1 - 1/2)| ≤ 3/10 := by
  constructor
  · with_unfolding_all decide
  · rw [show (3/2 : ℚ) - 1 / (1 - 1/2) = -(1/2) by norm_num, abs_neg,
      abs_of_pos (by norm_num : (0:ℚ) < (1/2:ℚ))]
    norm_num

/-- C7 (amended): on the 1×1 grid with a single non-wall cell of reward r and
discount γ in (0,1) (and a positive requested max_error): every action's
outcomes all keep the agent in place with total probability 1,
value_iteration terminates, and each returned converged utility equals
r/(1−γ) to within max_error/γ (the bound the returned pre-final-sweep
snapshot actually satisfies). -/
theorem unit_maze_value_iteration (r γ ε : ℚ) (hγ0 : 0 < γ) (hγ1 : γ < 1) (hε : 0 < ε) :
    (∀ a : MazeActions, ∀ e ∈ (unitMaze r γ).action_next_state_map ((0:ℤ), (0:ℤ)) a,
        e.2.1 = ((0:ℤ), (0:ℤ)))
    ∧ (∀ a : MazeActions,
        (((unitMaze r γ).action_next_state_map ((0:ℤ), (0:ℤ)) a).map (fun e => e.2.2)).sum = 1)
    ∧ ∃ (fuel : ℕ) (res : SolveResult),
        value_iteration (unitMaze r γ) ε fuel = some res
        ∧ ∀ s ∈ (unitMaze r γ).states,
            |res.converged_utilities s - r / (1 - γ)| < ε / γ := by
  refine ⟨?_, ?_, ?_⟩
  · intro a e he
    cases a
    · rw [unit_map_up] at he
      simp only [List.mem_cons, List.not_mem_nil, or_false] at he
      rcases he with rfl | rfl | rfl <;> rfl
    · rw [unit_map_down] at he
      simp only [List.mem_cons, List.not_mem_nil, or_false] at he
      rcases he with rfl | rfl | rfl <;> rfl
    · rw [unit_map_left] at he
      simp only [List.mem_cons, List.not_mem_nil, or_false] at he
      rcases he with rfl | rfl | rfl <;> rfl
    · rw [unit_map_right] at he
      simp only [List.mem_cons, List.not_mem_nil, or_false] at he
      rcases he with rfl | rfl | rfl <;> rfl
  · intro a
    cases a
    · rw [unit_map_up]; norm_num
    · rw [unit_map_down]; norm_num
    · rw [unit_map_left]; norm_num
    · rw [unit_map_right]; norm_num
  · have hthr : 0 < ε * (1 - γ) / γ := div_pos (mul_pos hε (by linarith)) hγ0
    have hrpos : (0:ℚ) < |r| + 1 := by positivity
    obtain ⟨n, hn⟩ := exists_pow_lt_of_lt_one (div_pos hthr hrpos) hγ1
    have hkey : |r - (1 - γ) * (0:ℚ)| * γ ^ n < ε * (1 - γ) / γ := by
      rw [mul_zero, sub_zero]
      calc |r| * γ ^ n ≤ (|r| + 1) * γ ^ n := by
            apply mul_le_mul_of_nonneg_right (by linarith [abs_nonneg r]) (by positivity)
      _ < ε * (1 - γ) / γ := (lt_div_iff₀' hrpos).mp hn
    obtain ⟨res, hres⟩ := unit_vi_terminates r γ ε hγ0 hγ1 hε n
      (fun _ => 0) (fun _ => none) (fun _ => []) hkey
    refine ⟨n + 1, res, hres, ?_⟩
    intro s hsmem
    rw [unit_states] at hsmem
    rcases List.mem_singleton.mp hsmem with rfl
    exact unit_vi_bound r γ ε hγ0 hγ1 (n + 1) _ _ _ res hres

/-- C7 witness: the amended boundary scenario instantiated at r = 1,
γ = 1/2, max_error = 1. -/
theorem unit_maze_value_iteration_witness :
    (0:ℚ) < 1/2 ∧ (1/2:ℚ) < 1 ∧ (0:ℚ) < 1
    ∧ ((∀ a : MazeActions, ∀ e ∈ (unitMaze 1 (1/2)).action_next_state_map ((0:ℤ), (0:ℤ)) a,
          e.2.1 = ((0:ℤ), (0:ℤ)))
      ∧ (∀ a : MazeActions,
          (((unitMaze 1 (1/2)).action_next_state_map ((0:ℤ), (0:ℤ)) a).map (fun e => e.2.2)).sum = 1)
      ∧ ∃ (fuel : ℕ) (res : SolveResult),
          value_iteration (unitMaze 1 (1/2)) 1 fuel = some res
          ∧ ∀ s ∈ (unitMaze 1 (1/2)).states,
              |res.converged_utilities s - 1 / (1 - 1/2)| < 1 / (1/2)) :=
  ⟨by norm_num, by norm_num, one_pos,
    unit_maze_value_iteration 1 (1/2) 1 (by norm_num) (by norm_num) one_pos⟩

end MazeVerify
